import Mathlib

/-!
Shallow embedding of the chat persistence core of `src/index.js`
(`cimatch-tmdb-proxy`).

Modelling conventions:

* Timestamps (`new Date().toISOString()` server stamps) are modelled as
  naturals (milliseconds since the epoch).  The ISO-8601 string produced by
  the server is in order-preserving bijection with its millisecond value,
  and re-parsing a stored stamp with `new Date` recovers that value, so the
  comparisons `new Date(m.atMs) > after` and the `updatedAt` sort comparator
  are faithfully represented by comparisons on naturals.
* JavaScript objects used as maps (`db`, `store.threads`, `store.messages`)
  are modelled as insertion-ordered association lists: property writes to a
  new key append at the end, writes to an existing key keep its position,
  matching JS own-property order for the non-integer-like keys used here.
* The `after` query parse (`new Date(req.query.after)`) is platform date
  parsing, external to the repository; it is taken as an abstract function
  `parse : String → Option Nat`, `none` standing for an Invalid Date (NaN),
  and NaN comparison semantics (`x > NaN` is false) is modelled by `dateGt`.
* Each route returns, besides its result, the new dataset and a `Bool`
  recording whether `scheduleSave()` was invoked during the call.
* `crypto.randomUUID()` is an external fresh-name source; the generated id
  is passed as an explicit `fresh` argument.
-/

namespace ChatStore

/-- First-match lookup in an insertion-ordered association list, the
semantics of reading `obj[key]` on a JS object modelled as such a list. -/
def alookup {α : Type} : List (String × α) → String → Option α
  | [], _ => none
  | (k, v) :: rest, key => if k = key then some v else alookup rest key

/-- Write `obj[key] = v` on a JS object modelled as an association list:
replace the value at the first occurrence of the key, keeping its position,
or append a new entry at the end. -/
def aset {α : Type} : List (String × α) → String → α → List (String × α)
  | [], key, v => [(key, v)]
  | (k, w) :: rest, key, v =>
    if k = key then (key, v) :: rest else (k, w) :: aset rest key v

/-- A stored message (`msg` object built in the append route). `at` is the
server timestamp in milliseconds. -/
structure Message where
  id : String
  fromMe : Bool
  text : String
  atMs : Nat
  deriving Repr, DecidableEq

/-- A stored thread record (shape created by `ensureThread` and the thread
upsert route). `updatedAt` is a timestamp in milliseconds; `unread` is the
JS number stored in the `unread` field. -/
structure Thread where
  id : String
  name : String
  avatarUrl : String
  online : Bool
  lastMessage : String
  unread : Int
  updatedAt : Nat
  muted : Bool
  archived : Bool
  deriving Repr, DecidableEq

/-- One user's store: `{ threads: {threadId: thread}, messages: {threadId: [msg]} }`. -/
structure Store where
  threads : List (String × Thread)
  messages : List (String × List Message)
  deriving Repr, DecidableEq

/-- The whole dataset `db : userId -> store`. -/
abbrev Db := List (String × Store)

/-- The empty store created by `getUser` for a new user id. -/
def emptyStore : Store := ⟨[], []⟩

/-- `getUser`: resolve the user id to its store, creating an empty store and
calling `scheduleSave()` when the user id is new.  Returns the (possibly
extended) dataset, the user's store, and whether a save was scheduled. -/
def getUser (db : Db) (userId : String) : Db × Store × Bool :=
  match alookup db userId with
  | some s => (db, s, false)
  | none => (db ++ [(userId, emptyStore)], emptyStore, true)

/-- The default thread record `ensureThread` installs for an unknown id. -/
def defaultThread (threadId : String) (now : Nat) : Thread :=
  { id := threadId, name := threadId, avatarUrl := "", online := false
    lastMessage := "", unread := 0, updatedAt := now, muted := false
    archived := false }

/-- `ensureThread(store, threadId)`: install the default thread record if the
id is unknown, and an empty message list if none exists.  Never schedules a
save. -/
def ensureThread (s : Store) (threadId : String) (now : Nat) : Store :=
  let s1 : Store :=
    if (alookup s.threads threadId).isSome then s
    else { s with threads := aset s.threads threadId (defaultThread threadId now) }
  if (alookup s1.messages threadId).isSome then s1
  else { s1 with messages := aset s1.messages threadId [] }

/-- Request body of `POST /v1/chat/threads`; `none` fields are absent
(`undefined`) in the JSON body, and `id = some ""` is the falsy empty id. -/
structure ThreadInput where
  id : Option String
  name : Option String
  avatarUrl : Option String
  online : Option Bool
  lastMessage : Option String
  unread : Option Int
  updatedAt : Option Nat
  muted : Option Bool
  archived : Option Bool
  deriving Repr, DecidableEq

/-- Normalization of the upsert body, mirroring the `??` defaults of the
route (`name` defaults to the id, `updatedAt` to the server's now). -/
def normalizeThread (t : ThreadInput) (id : String) (now : Nat) : Thread :=
  { id := id, name := t.name.getD id, avatarUrl := t.avatarUrl.getD ""
    online := t.online.getD false, lastMessage := t.lastMessage.getD ""
    unread := t.unread.getD 0, updatedAt := t.updatedAt.getD now
    muted := t.muted.getD false, archived := t.archived.getD false }

/-- `POST /v1/chat/threads`: resolve the user, reject a missing/empty id with
a 400 error, otherwise overwrite the thread record and ensure a message list
exists, scheduling a save.  The `Bool` records whether any `scheduleSave()`
ran (the user-resolution step may have scheduled one even on the error
path). -/
def upsertThread (db : Db) (userId : String) (t : ThreadInput) (now : Nat) :
    Db × Except String Unit × Bool :=
  match getUser db userId with
  | (db1, s, sv) =>
    if t.id = none ∨ t.id = some "" then (db1, Except.error "thread.id required", sv)
    else
      match t.id with
      | none => (db1, Except.error "thread.id required", sv)
      | some id =>
        let thread := normalizeThread t id now
        let s2 : Store :=
          { threads := aset s.threads id thread
            messages :=
              if (alookup s.messages id).isSome then s.messages
              else aset s.messages id [] }
        (aset db1 userId s2, Except.ok (), true)

/-- Descending comparison used by the `GET /v1/chat/threads` sort:
`(a, b) => new Date(b.updatedAt) - new Date(a.updatedAt)`. -/
def insertDesc (t : Thread) : List Thread → List Thread
  | [] => [t]
  | h :: rest =>
    if h.updatedAt ≤ t.updatedAt then t :: h :: rest else h :: insertDesc t rest

/-- Stable sort by `updatedAt` descending.  JS `Array.prototype.sort` is
stable and the comparator is a total preorder on the timestamps, so the
stably sorted permutation is unique and this insertion sort computes it. -/
def sortThreadsDesc : List Thread → List Thread
  | [] => []
  | h :: rest => insertDesc h (sortThreadsDesc rest)

/-- `GET /v1/chat/threads`: resolve the user and return its thread records
sorted by `updatedAt` descending.  The route itself never mutates and never
schedules a save; the `Bool` is the user-resolution step's save. -/
def listThreads (db : Db) (userId : String) : Db × List Thread × Bool :=
  match getUser db userId with
  | (db1, s, sv) => (db1, sortThreadsDesc (s.threads.map Prod.snd), sv)

/-- `new Date(m.atMs) > after` on two JS dates modelled as `Option Nat`
(`none` = Invalid Date): any comparison against NaN is false. -/
def dateGt : Option Nat → Option Nat → Bool
  | some a, some b => b < a
  | _, _ => false

/-- `GET /v1/chat/threads/:id/messages`: resolve the user, auto-vivify the
thread, and return the stored messages filtered by the optional `after`
cursor.  `afterRaw` is the raw query value (`none` = absent; the empty
string is falsy and treated as absent); `parse` is the platform's date
parsing. -/
def listMessages (db : Db) (userId threadId : String) (afterRaw : Option String)
    (parse : String → Option Nat) (now : Nat) : Db × List Message × Bool :=
  match getUser db userId with
  | (db1, s, sv) =>
    let s1 := ensureThread s threadId now
    let msgs := (alookup s1.messages threadId).getD []
    let filtered :=
      match afterRaw with
      | none => msgs
      | some q =>
        if q = "" then msgs
        else msgs.filter (fun m => dateGt (some m.atMs) (parse q))
    (aset db1 userId s1, filtered, sv)

/-- `POST /v1/chat/threads/:id/read`: auto-vivify the thread and set its
`unread` to `0`, scheduling a save. -/
def markRead (db : Db) (userId threadId : String) (now : Nat) : Db × Bool :=
  match getUser db userId with
  | (db1, s, _) =>
    let s1 := ensureThread s threadId now
    let th := (alookup s1.threads threadId).getD (defaultThread threadId now)
    let s2 := { s1 with threads := aset s1.threads threadId { th with unread := 0 } }
    (aset db1 userId s2, true)

/-- Request body of the append route.  `at` is a client-supplied timestamp
the route never reads (the server stamps its own). `id = some ""` is the
falsy empty id, which makes the route generate a fresh one. -/
structure MessageInput where
  id : Option String
  fromMe : Bool
  text : Option String
  atMs : Option Nat
  deriving Repr, DecidableEq

/-- The message id actually used: the client id when present and truthy,
otherwise the freshly generated `crypto.randomUUID()`. -/
def effId (b : MessageInput) (fresh : String) : String :=
  match b.id with
  | some i => if i = "" then fresh else i
  | none => fresh

/-- Result of the append route: `created = true` is the 201 response of a
genuine append, `created = false` the 200 duplicate response; `id`/`at` echo
the stored message. -/
structure AppendResult where
  created : Bool
  id : String
  atMs : Nat
  deriving Repr, DecidableEq

/-- `POST /v1/chat/threads/:id/messages`: resolve the user, auto-vivify the
thread, and append the message unless one with the same id already exists;
on a genuine append update the thread's `lastMessage`/`updatedAt` and
schedule a save, on a duplicate return the stored `(id, at)` unchanged. -/
def appendMessage (db : Db) (userId threadId : String) (b : MessageInput)
    (fresh : String) (now : Nat) : Db × AppendResult × Bool :=
  match getUser db userId with
  | (db1, s, sv) =>
    let s1 := ensureThread s threadId now
    let msg : Message := { id := effId b fresh, fromMe := b.fromMe
                           text := b.text.getD "", atMs := now }
    let list := (alookup s1.messages threadId).getD []
    match list.find? (fun m => m.id = msg.id) with
    | some existing =>
      (aset db1 userId s1, ⟨false, existing.id, existing.atMs⟩, sv)
    | none =>
      let th := (alookup s1.threads threadId).getD (defaultThread threadId now)
      let s2 : Store :=
        { threads := aset s1.threads threadId
            { th with lastMessage := msg.text, updatedAt := msg.atMs }
          messages := aset s1.messages threadId (list ++ [msg]) }
      (aset db1 userId s2, ⟨true, msg.id, msg.atMs⟩, true)

/-- The messages currently stored for a thread of a user (empty when the
user or the list is absent). -/
def msgsOf (db : Db) (userId threadId : String) : List Message :=
  match alookup db userId with
  | some s => (alookup s.messages threadId).getD []
  | none => []

/-- The thread records currently stored for a user. -/
def threadsOf (db : Db) (userId : String) : List (String × Thread) :=
  match alookup db userId with
  | some s => s.threads
  | none => []

/-- One public operation of the service facade (the transport-level request
data, without the server clock). -/
inductive Op where
  | listThreadsOp (u : String)
  | upsertThreadOp (u : String) (t : ThreadInput)
  | listMessagesOp (u tid : String) (afterRaw : Option String)
  | markReadOp (u tid : String)
  | appendMessageOp (u tid : String) (b : MessageInput) (fresh : String)
  deriving Repr

/-- The dataset transition of one operation executed at server time `now`.
The `after` cursor only filters the response, never the stored data, so the
`listMessages` transition is taken with an arbitrary (never consulted)
parse function. -/
def step (db : Db) : Op → Nat → Db
  | Op.listThreadsOp u, _ => (listThreads db u).1
  | Op.upsertThreadOp u t, now => (upsertThread db u t now).1
  | Op.listMessagesOp u tid afterRaw, now =>
    (listMessages db u tid afterRaw (fun _ => none) now).1
  | Op.markReadOp u tid, now => (markRead db u tid now).1
  | Op.appendMessageOp u tid b fresh, now => (appendMessage db u tid b fresh now).1

/-- Run a list of timestamped operations from a dataset. -/
def runOps (db : Db) : List (Op × Nat) → Db
  | [] => db
  | (op, now) :: rest => runOps (step db op now) rest

/-- A sequence of append calls against one `(userId, threadId)`, each with
its own body, fresh id and server time; collects every call's result and
save flag. -/
def appendSeq (db : Db) (userId threadId : String) :
    List (MessageInput × String × Nat) → Db × List (AppendResult × Bool)
  | [] => (db, [])
  | (b, fresh, now) :: rest =>
    match appendMessage db userId threadId b fresh now with
    | (db1, r, sv) =>
      match appendSeq db1 userId threadId rest with
      | (db2, rs) => (db2, (r, sv) :: rs)

/-!
## Durable store adapter

`saveDbNow` is `JSON.stringify(db)` and `loadDb` is `JSON.parse` of the
file's contents (an empty dataset when the file is missing or unparsable).
The serialized blob is modelled as the JSON document itself, so
stringify-then-parse of a JSON-safe value being the identity is captured by
encoding the dataset to a `Json` tree and reading the persisted layout
back. -/

/-- A JSON document. -/
inductive Json where
  | null
  | bool (b : Bool)
  | num (n : Int)
  | str (s : String)
  | arr (items : List Json)
  | obj (fields : List (String × Json))
  deriving Repr

/-- JSON shape of a stored message (timestamps written as their millisecond
value, see the module conventions). -/
def encodeMessage (m : Message) : Json :=
  Json.obj [("id", Json.str m.id), ("fromMe", Json.bool m.fromMe),
            ("text", Json.str m.text), ("at", Json.num (Int.ofNat m.atMs))]

/-- JSON shape of a stored thread record. -/
def encodeThread (t : Thread) : Json :=
  Json.obj [("id", Json.str t.id), ("name", Json.str t.name),
            ("avatarUrl", Json.str t.avatarUrl), ("online", Json.bool t.online),
            ("lastMessage", Json.str t.lastMessage), ("unread", Json.num t.unread),
            ("updatedAt", Json.num (Int.ofNat t.updatedAt)),
            ("muted", Json.bool t.muted), ("archived", Json.bool t.archived)]

/-- JSON shape of one user's store. -/
def encodeStore (s : Store) : Json :=
  Json.obj
    [("threads", Json.obj (s.threads.map (fun p => (p.1, encodeThread p.2)))),
     ("messages", Json.obj (s.messages.map
        (fun p => (p.1, Json.arr (p.2.map encodeMessage)))))]

/-- `saveDbNow`: the persisted document `JSON.stringify` writes, one object
keyed by user id. -/
def saveDbNow (db : Db) : Json :=
  Json.obj (db.map (fun p => (p.1, encodeStore p.2)))

/-- Reading a message back from the persisted layout. -/
def decodeMessage : Json → Option Message
  | Json.obj [("id", Json.str i), ("fromMe", Json.bool f),
              ("text", Json.str t), ("at", Json.num (Int.ofNat n))] =>
    some ⟨i, f, t, n⟩
  | _ => none

/-- Reading a thread record back from the persisted layout. -/
def decodeThread : Json → Option Thread
  | Json.obj [("id", Json.str i), ("name", Json.str n),
              ("avatarUrl", Json.str av), ("online", Json.bool onl),
              ("lastMessage", Json.str lm), ("unread", Json.num ur),
              ("updatedAt", Json.num (Int.ofNat up)),
              ("muted", Json.bool mu), ("archived", Json.bool ar)] =>
    some ⟨i, n, av, onl, lm, ur, up, mu, ar⟩
  | _ => none

/-- Read every field of a JSON object through a value decoder. -/
def decodeFields {α : Type} (dec : Json → Option α) :
    List (String × Json) → Option (List (String × α))
  | [] => some []
  | (k, j) :: rest =>
    match dec j, decodeFields dec rest with
    | some v, some vs => some ((k, v) :: vs)
    | _, _ => none

/-- Read a JSON array elementwise. -/
def decodeList {α : Type} (dec : Json → Option α) : List Json → Option (List α)
  | [] => some []
  | j :: rest =>
    match dec j, decodeList dec rest with
    | some v, some vs => some (v :: vs)
    | _, _ => none

/-- Reading a message list back. -/
def decodeMessages : Json → Option (List Message)
  | Json.arr items => decodeList decodeMessage items
  | _ => none

/-- Reading one user's store back from the persisted layout. -/
def decodeStore : Json → Option Store
  | Json.obj [("threads", Json.obj ths), ("messages", Json.obj msgs)] =>
    match decodeFields decodeThread ths, decodeFields decodeMessages msgs with
    | some ths2, some msgs2 => some ⟨ths2, msgs2⟩
    | _, _ => none
  | _ => none

/-- `loadDb`: read the persisted document back into a dataset; a missing
file (`none`) or a document not of the persisted layout yields the empty
dataset. -/
def loadDb (file : Option Json) : Db :=
  match file with
  | none => []
  | some j =>
    match j with
    | Json.obj users =>
      match decodeFields decodeStore users with
      | some db => db
      | none => []
    | _ => []

/-!
## Association-list lemmas
-/

theorem alookup_aset_self {α : Type} (l : List (String × α)) (k : String) (v : α) :
    alookup (aset l k v) k = some v := by
  induction l with
  | nil => simp [aset, alookup]
  | cons p rest ih =>
    obtain ⟨k0, w⟩ := p
    by_cases h : k0 = k
    · simp [aset, alookup, h]
    · simp [aset, alookup, h, ih]

theorem alookup_aset_ne {α : Type} (l : List (String × α)) (k k' : String) (v : α)
    (h : k' ≠ k) : alookup (aset l k v) k' = alookup l k' := by
  induction l with
  | nil => simp [aset, alookup, Ne.symm h]
  | cons p rest ih =>
    obtain ⟨k0, w⟩ := p
    by_cases h0 : k0 = k
    · subst h0
      simp [aset, alookup, Ne.symm h]
    · simp [aset, alookup, h0, ih]

theorem aset_eq_self {α : Type} (l : List (String × α)) (k : String) (v : α)
    (h : alookup l k = some v) : aset l k v = l := by
  induction l with
  | nil => simp [alookup] at h
  | cons p rest ih =>
    obtain ⟨k0, w⟩ := p
    by_cases h0 : k0 = k
    · subst h0
      simp [alookup] at h
      simp [aset, h]
    · simp [alookup, h0] at h
      simp [aset, h0, ih h]

theorem alookup_append_of_none {α : Type} (l l2 : List (String × α)) (k : String)
    (h : alookup l k = none) : alookup (l ++ l2) k = alookup l2 k := by
  induction l with
  | nil => simp
  | cons p rest ih =>
    obtain ⟨k0, w⟩ := p
    by_cases h0 : k0 = k
    · simp [alookup, h0] at h
    · simp [alookup, h0] at h ⊢
      exact ih h

theorem alookup_append_of_some {α : Type} (l l2 : List (String × α)) (k : String)
    (v : α) (h : alookup l k = some v) : alookup (l ++ l2) k = some v := by
  induction l with
  | nil => simp [alookup] at h
  | cons p rest ih =>
    obtain ⟨k0, w⟩ := p
    by_cases h0 : k0 = k
    · simp [alookup, h0] at h ⊢
      exact h
    · simp [alookup, h0] at h ⊢
      exact ih h

/-- `aset` on an absent key appends the new entry. -/
theorem aset_of_none {α : Type} (l : List (String × α)) (k : String) (v : α)
    (h : alookup l k = none) : aset l k v = l ++ [(k, v)] := by
  induction l with
  | nil => simp [aset]
  | cons p rest ih =>
    obtain ⟨k0, w⟩ := p
    by_cases h0 : k0 = k
    · simp [alookup, h0] at h
    · simp [alookup, h0] at h
      simp [aset, h0, ih h]

/-- `aset` on a present key splits the list at its first occurrence. -/
theorem aset_of_some {α : Type} (l : List (String × α)) (k : String) (v w : α)
    (h : alookup l k = some w) :
    ∃ l1 l2, l = l1 ++ (k, w) :: l2 ∧ aset l k v = l1 ++ (k, v) :: l2 ∧
      alookup l1 k = none := by
  induction l with
  | nil => simp [alookup] at h
  | cons p rest ih =>
    obtain ⟨k0, w0⟩ := p
    by_cases h0 : k0 = k
    · subst h0
      simp [alookup] at h
      subst h
      exact ⟨[], rest, by simp [aset, alookup]⟩
    · simp [alookup, h0] at h
      obtain ⟨l1, l2, hl, hset, hnone⟩ := ih h
      refine ⟨(k0, w0) :: l1, l2, by simp [hl], ?_, by simp [alookup, h0, hnone]⟩
      simp [aset, h0, hset]

/-!
## `getUser` and `ensureThread` lemmas
-/

theorem getUser_some {db : Db} {u : String} {s : Store}
    (h : alookup db u = some s) : getUser db u = (db, s, false) := by
  simp [getUser, h]

theorem getUser_none {db : Db} {u : String} (h : alookup db u = none) :
    getUser db u = (db ++ [(u, emptyStore)], emptyStore, true) := by
  simp [getUser, h]

/-- `ensureThread` is a no-op when the thread and its message list exist. -/
theorem ensureThread_noop {s : Store} {tid : String} {now : Nat}
    (ht : (alookup s.threads tid).isSome)
    (hm : (alookup s.messages tid).isSome) : ensureThread s tid now = s := by
  simp [ensureThread, ht, hm]

theorem ensureThread_messages_self (s : Store) (tid : String) (now : Nat) :
    alookup (ensureThread s tid now).messages tid =
      some ((alookup s.messages tid).getD []) := by
  unfold ensureThread
  by_cases ht : (alookup s.threads tid).isSome <;>
    by_cases hm : (alookup s.messages tid).isSome
  · obtain ⟨l, hl⟩ := Option.isSome_iff_exists.mp hm
    simp [ht, hm, hl]
  · have hm2 := Option.not_isSome_iff_eq_none.mp hm
    simp [ht, hm, hm2, alookup_aset_self]
  · obtain ⟨l, hl⟩ := Option.isSome_iff_exists.mp hm
    simp [ht, hm, hl]
  · have hm2 := Option.not_isSome_iff_eq_none.mp hm
    simp [ht, hm, hm2, alookup_aset_self]

theorem ensureThread_messages_ne (s : Store) (tid tid' : String) (now : Nat)
    (h : tid' ≠ tid) :
    alookup (ensureThread s tid now).messages tid' = alookup s.messages tid' := by
  unfold ensureThread
  by_cases ht : (alookup s.threads tid).isSome <;>
    by_cases hm : (alookup s.messages tid).isSome <;>
      simp [ht, hm, alookup_aset_ne _ _ _ _ h]

theorem ensureThread_threads_self (s : Store) (tid : String) (now : Nat) :
    alookup (ensureThread s tid now).threads tid =
      some ((alookup s.threads tid).getD (defaultThread tid now)) := by
  unfold ensureThread
  by_cases ht : (alookup s.threads tid).isSome <;>
    by_cases hm : (alookup s.messages tid).isSome
  · obtain ⟨t, hl⟩ := Option.isSome_iff_exists.mp ht
    simp [ht, hm, hl]
  · obtain ⟨t, hl⟩ := Option.isSome_iff_exists.mp ht
    simp [ht, hm, hl]
  · have ht2 := Option.not_isSome_iff_eq_none.mp ht
    simp [ht, hm, ht2, alookup_aset_self, alookup_aset_ne]
  · have ht2 := Option.not_isSome_iff_eq_none.mp ht
    simp [ht, hm, ht2, alookup_aset_self, alookup_aset_ne]

theorem ensureThread_threads_ne (s : Store) (tid tid' : String) (now : Nat)
    (h : tid' ≠ tid) :
    alookup (ensureThread s tid now).threads tid' = alookup s.threads tid' := by
  unfold ensureThread
  by_cases ht : (alookup s.threads tid).isSome <;>
    by_cases hm : (alookup s.messages tid).isSome <;>
      simp [ht, hm, alookup_aset_ne _ _ _ _ h]

/-!
## Append route lemmas
-/

/-- A duplicate append: when the user, thread and message list exist and the
list already holds a message with the effective id, the call changes
nothing, schedules no save, and echoes the stored message's `(id, at)`. -/
theorem appendMessage_duplicate {db : Db} {u tid : String} {s : Store}
    {l : List Message} {m : Message} (b : MessageInput) (fresh : String) (now : Nat)
    (hu : alookup db u = some s)
    (ht : (alookup s.threads tid).isSome)
    (hm : alookup s.messages tid = some l)
    (hf : l.find? (fun m0 => m0.id = effId b fresh) = some m) :
    appendMessage db u tid b fresh now = (db, ⟨false, m.id, m.atMs⟩, false) := by
  have hnoop : ensureThread s tid now = s := ensureThread_noop ht (by simp [hm])
  simp [appendMessage, getUser_some hu, hnoop, hm, hf, aset_eq_self db u s hu]

/-- The message record a genuine append stores. -/
def mkMsg (b : MessageInput) (fresh : String) (now : Nat) : Message :=
  ⟨effId b fresh, b.fromMe, b.text.getD "", now⟩

/-- A genuine append: when no stored message has the effective id, the call
returns `created = true` with the server stamp, schedules a save, appends
the message at the end of the thread's list, and rewrites the thread record
with `lastMessage`/`updatedAt` taken from the new message. -/
theorem appendMessage_created (db : Db) (u tid : String) (b : MessageInput)
    (fresh : String) (now : Nat)
    (hf : (msgsOf db u tid).find? (fun m0 => m0.id = effId b fresh) = none) :
    (appendMessage db u tid b fresh now).2.1 = ⟨true, effId b fresh, now⟩ ∧
    (appendMessage db u tid b fresh now).2.2 = true ∧
    ∃ s2, alookup (appendMessage db u tid b fresh now).1 u = some s2 ∧
      alookup s2.messages tid = some (msgsOf db u tid ++ [mkMsg b fresh now]) ∧
      ∃ th', alookup s2.threads tid = some th' ∧
        th'.lastMessage = b.text.getD "" ∧ th'.updatedAt = now := by
  cases hu : alookup db u with
  | some s =>
    have hmsgs : msgsOf db u tid = (alookup s.messages tid).getD [] := by
      simp [msgsOf, hu]
    rw [hmsgs] at hf
    have hms := ensureThread_messages_self s tid now
    have hts := ensureThread_threads_self s tid now
    simp [appendMessage, getUser_some hu, hms, hf, hmsgs, mkMsg,
      alookup_aset_self]
  | none =>
    have hmsgs : msgsOf db u tid = [] := by simp [msgsOf, hu]
    rw [hmsgs] at hf
    have hbase : alookup (db ++ [(u, emptyStore)]) u = some emptyStore :=
      alookup_append_of_none db _ u hu ▸ by
        simp [alookup_append_of_none db _ u hu, alookup]
    simp [appendMessage, getUser_none hu, ensureThread, emptyStore, alookup,
      aset, hmsgs, mkMsg, alookup_aset_self, hbase]

theorem find?_append_right {α : Type} (l l2 : List α) (p : α → Bool)
    (h : l.find? p = none) : (l ++ l2).find? p = l2.find? p := by
  induction l with
  | nil => simp
  | cons x rest ih =>
    by_cases hx : p x
    · simp [List.find?_cons_of_pos _ hx] at h
    · simp only [List.find?_cons_of_neg _ hx] at h
      simpa [List.find?_cons_of_neg _ hx] using ih h

/-- Every append call against a state that already stores a message found
for the target id is a pure duplicate: the dataset never changes and every
call returns the stored `(id, at)` with `created = false` and no save. -/
theorem appendSeq_stable (db : Db) (u tid i : String) (m : Message) (s : Store)
    (l : List Message) (hu : alookup db u = some s)
    (ht : (alookup s.threads tid).isSome)
    (hm : alookup s.messages tid = some l)
    (hf : l.find? (fun m0 => m0.id = i) = some m)
    (rest : List (MessageInput × String × Nat))
    (hall : ∀ x ∈ rest, effId x.1 x.2.1 = i) :
    appendSeq db u tid rest =
      (db, rest.map (fun _ => ((⟨false, m.id, m.atMs⟩ : AppendResult), false))) := by
  induction rest with
  | nil => simp [appendSeq]
  | cons x rest ih =>
    obtain ⟨b, fresh, now⟩ := x
    have hx : effId b fresh = i := hall (b, fresh, now) (by simp)
    have hdup := appendMessage_duplicate (m := m) b fresh now hu ht hm
      (by rw [hx]; exact hf)
    simp [appendSeq, hdup, ih (fun y hy => hall y (by simp [hy]))]

/-!
## Claim C1
-/

/-- C1: for every sequence of `appendMessage` calls addressed to the same
user, thread id and effective message id `i` (starting from a state with no
stored message of that id), exactly one message with id `i` is ever stored
in the thread's list; the first call answers `created = true`, and every
later call performs no mutation of the dataset, schedules no save, and
returns the originally stored `(id, at)` pair with `created = false`. -/
theorem C1_appendMessage_idempotent (db : Db) (u tid i : String)
    (first : MessageInput × String × Nat)
    (rest : List (MessageInput × String × Nat))
    (h0 : (msgsOf db u tid).find? (fun m0 => m0.id = i) = none)
    (hall : ∀ x ∈ first :: rest, effId x.1 x.2.1 = i) :
    ((appendSeq db u tid (first :: rest)).2 =
        ((⟨true, i, first.2.2⟩ : AppendResult), true) ::
          rest.map (fun _ => ((⟨false, i, first.2.2⟩ : AppendResult), false))) ∧
    (msgsOf (appendSeq db u tid (first :: rest)).1 u tid).countP
        (fun m0 => m0.id = i) = 1 ∧
    (appendSeq db u tid (first :: rest)).1 =
      (appendMessage db u tid first.1 first.2.1 first.2.2).1 := by
  obtain ⟨b0, f0, n0⟩ := first
  have hi : effId b0 f0 = i := hall (b0, f0, n0) (by simp)
  have hf0 : (msgsOf db u tid).find? (fun m0 => m0.id = effId b0 f0) = none := by
    rw [hi]; exact h0
  obtain ⟨hr, hsv, s2, hs2, hm2, th', hth', -, -⟩ :=
    appendMessage_created db u tid b0 f0 n0 hf0
  have hmsgid : (mkMsg b0 f0 n0).id = i := by simp [mkMsg, hi]
  have hfind2 : (msgsOf db u tid ++ [mkMsg b0 f0 n0]).find?
      (fun m0 => m0.id = i) = some (mkMsg b0 f0 n0) := by
    rw [find?_append_right _ _ _ h0]
    simp [List.find?_cons_of_pos, hmsgid]
  have hcount0 : (msgsOf db u tid).countP (fun m0 => m0.id = i) = 0 := by
    rw [List.countP_eq_zero]
    intro a ha
    exact List.find?_eq_none.mp h0 a ha
  rcases he : appendMessage db u tid b0 f0 n0 with ⟨db1, r, sv⟩
  rw [he] at hr hsv hs2
  simp only at hr hsv hs2
  subst hr hsv
  have hstable := appendSeq_stable db1 u tid i (mkMsg b0 f0 n0) s2 _ hs2
    (by simp [hth']) hm2 hfind2 rest (fun y hy => hall y (by simp [hy]))
  have hseq : appendSeq db u tid ((b0, f0, n0) :: rest) =
      (db1, (⟨true, effId b0 f0, n0⟩, true) ::
        rest.map (fun _ => ((⟨false, (mkMsg b0 f0 n0).id, (mkMsg b0 f0 n0).atMs⟩ :
          AppendResult), false))) := by
    simp [appendSeq, he, hstable]
  refine ⟨?_, ?_, ?_⟩
  · rw [hseq]
    simp [hi, mkMsg]
  · rw [hseq]
    simp only
    have : msgsOf db1 u tid = msgsOf db u tid ++ [mkMsg b0 f0 n0] := by
      simp [msgsOf, hs2, hm2]
    rw [this, List.countP_append, hcount0]
    simp [hmsgid]
  · simp [hseq, he]

/-- Witness for C1 at a concrete two-call sequence. -/
theorem C1_appendMessage_idempotent_witness :
    ((msgsOf [] "u1" "t1").find? (fun m0 => m0.id = "m1") = none) ∧
    (appendSeq [] "u1" "t1"
        [(⟨some "m1", false, some "hi", none⟩, "f0", 100),
         (⟨some "m1", true, some "ho", some 7⟩, "f9", 200)]).2 =
      [((⟨true, "m1", 100⟩ : AppendResult), true),
       ((⟨false, "m1", 100⟩ : AppendResult), false)] := by
  refine ⟨rfl, ?_⟩
  have h := C1_appendMessage_idempotent [] "u1" "t1" "m1"
    (⟨some "m1", false, some "hi", none⟩, "f0", 100)
    [(⟨some "m1", true, some "ho", some 7⟩, "f9", 200)] rfl (by decide)
  simpa using h.1

/-!
## Claims C3 and C10: the `after` cursor
-/

/-- The response of the messages route, expressed over the stored list: the
full list when the cursor is absent or the empty string, otherwise the
stored-order filter through the JS date comparison against the parsed
cursor. -/
theorem listMessages_result (db : Db) (u tid : String) (afterRaw : Option String)
    (parse : String → Option Nat) (now : Nat) :
    (listMessages db u tid afterRaw parse now).2.1 =
      match afterRaw with
      | none => msgsOf db u tid
      | some q =>
        if q = "" then msgsOf db u tid
        else (msgsOf db u tid).filter (fun m => dateGt (some m.atMs) (parse q)) := by
  cases hu : alookup db u with
  | some s =>
    have hms := ensureThread_messages_self s tid now
    have hbase : msgsOf db u tid = (alookup s.messages tid).getD [] := by
      simp [msgsOf, hu]
    cases afterRaw <;> simp [listMessages, getUser_some hu, hms, hbase]
  | none =>
    have hbase : msgsOf db u tid = [] := by simp [msgsOf, hu]
    cases afterRaw <;>
      simp [listMessages, getUser_none hu, ensureThread, emptyStore, alookup,
        aset, hbase]

/-- C3: with a parsable `after` timestamp `T`, the messages route returns
exactly the stored messages with `at` strictly greater than `T`, as a
sublist (stored insertion order preserved); the result is empty when no
message is later than `T` and the full list when every message is; with no
`after` argument the full ordered list is returned. -/
theorem C3_listMessages_after_filter (db : Db) (u tid : String) (q : String)
    (parse : String → Option Nat) (T now : Nat)
    (hq : q ≠ "") (hp : parse q = some T) :
    ((listMessages db u tid (some q) parse now).2.1 =
        (msgsOf db u tid).filter (fun m => T < m.atMs)) ∧
    ((listMessages db u tid (some q) parse now).2.1).Sublist (msgsOf db u tid) ∧
    (∀ m : Message, m ∈ (listMessages db u tid (some q) parse now).2.1 ↔
        (m ∈ msgsOf db u tid ∧ T < m.atMs)) ∧
    ((∀ m ∈ msgsOf db u tid, m.atMs ≤ T) →
        (listMessages db u tid (some q) parse now).2.1 = []) ∧
    ((∀ m ∈ msgsOf db u tid, T < m.atMs) →
        (listMessages db u tid (some q) parse now).2.1 = msgsOf db u tid) ∧
    ((listMessages db u tid none parse now).2.1 = msgsOf db u tid) := by
  have hres := listMessages_result db u tid (some q) parse now
  have hnone := listMessages_result db u tid none parse now
  simp only [hq, if_neg, hp] at hres
  have hfil : (listMessages db u tid (some q) parse now).2.1 =
      (msgsOf db u tid).filter (fun m => T < m.atMs) := by
    rw [hres]
    simp [dateGt]
  refine ⟨hfil, ?_, ?_, ?_, ?_, by simpa using hnone⟩
  · rw [hfil]; exact List.filter_sublist _
  · intro m
    rw [hfil]
    simp [List.mem_filter]
  · intro hle
    rw [hfil]
    rw [List.filter_eq_nil_iff]
    intro a ha
    simpa using Nat.not_lt.mpr (hle a ha)
  · intro hgt
    rw [hfil]
    rw [List.filter_eq_self]
    intro a ha
    simpa using hgt a ha

/-- Witness for C3 at a concrete store and cursor. -/
theorem C3_listMessages_after_filter_witness :
    ("5" ≠ "" ∧ (fun s => if s = "5" then some 5 else none) "5" = some 5) ∧
    (listMessages
        [("u", ⟨[("t", defaultThread "t" 0)],
           [("t", [⟨"a", false, "x", 3⟩, ⟨"b", false, "y", 9⟩])]⟩)]
        "u" "t" (some "5") (fun s => if s = "5" then some 5 else none)
        10).2.1 = [⟨"b", false, "y", 9⟩] := by
  refine ⟨⟨by decide, by decide⟩, ?_⟩
  have h := C3_listMessages_after_filter
    [("u", ⟨[("t", defaultThread "t" 0)],
       [("t", [⟨"a", false, "x", 3⟩, ⟨"b", false, "y", 9⟩])]⟩)]
    "u" "t" "5" (fun s => if s = "5" then some 5 else none) 5 10
    (by decide) (by decide)
  rw [h.1]
  rfl

/-- C10: a present, non-empty `after` value that does not parse as a valid
date makes every strict-greater comparison false, so the route returns the
empty list whatever is stored; an empty-string `after` is falsy and yields
the full stored list. -/
theorem C10_invalid_after_empty (db : Db) (u tid : String) (q : String)
    (parse : String → Option Nat) (now : Nat)
    (hq : q ≠ "") (hp : parse q = none) :
    ((listMessages db u tid (some q) parse now).2.1 = []) ∧
    ((listMessages db u tid (some "") parse now).2.1 = msgsOf db u tid) := by
  have hres := listMessages_result db u tid (some q) parse now
  have hempty := listMessages_result db u tid (some "") parse now
  simp only [hq, if_neg, hp] at hres
  constructor
  · rw [hres]
    simp [dateGt]
  · simpa using hempty

/-- Witness for C10 at a concrete store with a stored message. -/
theorem C10_invalid_after_empty_witness :
    ("garbage" ≠ "" ∧ (fun _ : String => (none : Option Nat)) "garbage" = none) ∧
    (listMessages [("u", ⟨[("t", defaultThread "t" 0)], [("t", [⟨"a", false, "x", 3⟩])]⟩)]
        "u" "t" (some "garbage") (fun _ => none) 10).2.1 = [] ∧
    (listMessages [("u", ⟨[("t", defaultThread "t" 0)], [("t", [⟨"a", false, "x", 3⟩])]⟩)]
        "u" "t" (some "") (fun _ => none) 10).2.1 = [⟨"a", false, "x", 3⟩] := by
  have h := C10_invalid_after_empty
    [("u", ⟨[("t", defaultThread "t" 0)], [("t", [⟨"a", false, "x", 3⟩])]⟩)]
    "u" "t" "garbage" (fun _ => none) 10 (by decide) rfl
  exact ⟨⟨by decide, rfl⟩, h.1, by rw [h.2]; rfl⟩

/-!
## Claim C2: effects of the messages route
-/

/-- C2 counterexample: with an existing tenant and an unknown thread id,
`listMessages` mutates the dataset (it auto-vivifies the thread) yet
schedules no save, refuting "it triggers a save exactly when that
auto-vivification happened". -/
theorem C2_counterexample :
    (listMessages [("u", emptyStore)] "u" "t" none (fun _ => none) 0).1 ≠
      [("u", emptyStore)] ∧
    (listMessages [("u", emptyStore)] "u" "t" none (fun _ => none) 0).2.2 = false := by
  exact ⟨by decide, rfl⟩

/-- C2 (amended): `listMessages` mutates persisted state only in the
auto-vivify case, and it schedules a save exactly when the tenant store for
the user key did not previously exist; thread-level auto-vivification alone
schedules no save, and when the thread (with its message list) already
exists the call changes nothing and schedules no save. -/
theorem C2_listMessages_effects (db : Db) (u tid : String)
    (afterRaw : Option String) (parse : String → Option Nat) (now : Nat) :
    ((listMessages db u tid afterRaw parse now).2.2 = (alookup db u).isNone) ∧
    (∀ s : Store, alookup db u = some s →
      (listMessages db u tid afterRaw parse now).1 =
        aset db u (ensureThread s tid now)) ∧
    (∀ s : Store, alookup db u = some s →
      (alookup s.threads tid).isSome → (alookup s.messages tid).isSome →
      (listMessages db u tid afterRaw parse now).1 = db) := by
  refine ⟨?_, ?_, ?_⟩
  · cases hu : alookup db u with
    | some s => simp [listMessages, getUser_some hu]
    | none => simp [listMessages, getUser_none hu]
  · intro s hu
    simp [listMessages, getUser_some hu]
  · intro s hu ht hm
    have hnoop : ensureThread s tid now = s := ensureThread_noop ht hm
    simp [listMessages, getUser_some hu, hnoop, aset_eq_self db u s hu]

/-- Witness for C2 at a concrete dataset whose thread exists. -/
theorem C2_listMessages_effects_witness :
    (listMessages [("u", ⟨[("t", defaultThread "t" 3)], [("t", [])]⟩)]
        "u" "t" none (fun _ => none) 9).1 =
      [("u", ⟨[("t", defaultThread "t" 3)], [("t", [])]⟩)] ∧
    (listMessages [("u", ⟨[("t", defaultThread "t" 3)], [("t", [])]⟩)]
        "u" "t" none (fun _ => none) 9).2.2 = false := by
  have h := C2_listMessages_effects
    [("u", ⟨[("t", defaultThread "t" 3)], [("t", [])]⟩)] "u" "t" none
    (fun _ => none) 9
  refine ⟨h.2.2 ⟨[("t", defaultThread "t" 3)], [("t", [])]⟩ rfl rfl rfl, ?_⟩
  rw [h.1]
  rfl

/-!
## Claim C4: effects of the thread listing route
-/

/-- C4 counterexample: a `listThreads` call for a fresh user key creates the
tenant store and schedules a save, refuting "never creates anything, and
leaves the entire dataset exactly as it was, scheduling no save". -/
theorem C4_counterexample :
    (listThreads [] "u").1 ≠ ([] : Db) ∧ (listThreads [] "u").2.2 = true := by
  exact ⟨by decide, rfl⟩

/-- C4 (amended): `listThreads` never errors and never creates threads or
messages; for an existing user key it leaves the entire dataset exactly as
it was and schedules no save; for a new user key the user-resolution step
auto-creates an empty tenant store and schedules a save, and the returned
thread list is empty. -/
theorem C4_listThreads_effects (db : Db) (u : String) :
    (∀ s : Store, alookup db u = some s →
      listThreads db u = (db, sortThreadsDesc (s.threads.map Prod.snd), false)) ∧
    (alookup db u = none →
      listThreads db u = (db ++ [(u, emptyStore)], [], true)) := by
  constructor
  · intro s hu
    simp [listThreads, getUser_some hu]
  · intro hu
    simp [listThreads, getUser_none hu, emptyStore, sortThreadsDesc]

/-- Witness for C4 at a concrete dataset with an existing user. -/
theorem C4_listThreads_effects_witness :
    listThreads [("u", ⟨[("t", defaultThread "t" 3)], [("t", [])]⟩)] "u" =
      ([("u", ⟨[("t", defaultThread "t" 3)], [("t", [])]⟩)],
       [defaultThread "t" 3], false) := by
  have h := (C4_listThreads_effects
    [("u", ⟨[("t", defaultThread "t" 3)], [("t", [])]⟩)] "u").1
    ⟨[("t", defaultThread "t" 3)], [("t", [])]⟩ rfl
  rw [h]
  rfl

/-!
## Claim C5: upsert validation
-/

/-- C5 counterexample: an invalid upsert (missing id) under a fresh user key
still creates the tenant store and schedules a save, refuting "every such
validation failure causes no state change to the dataset ... and no save is
scheduled". -/
theorem C5_counterexample :
    (upsertThread [] "u" ⟨none, none, none, none, none, none, none, none, none⟩
        0).1 ≠ ([] : Db) ∧
    (upsertThread [] "u" ⟨none, none, none, none, none, none, none, none, none⟩
        0).2.2 = true ∧
    (upsertThread [] "u" ⟨none, none, none, none, none, none, none, none, none⟩
        0).2.1 = Except.error "thread.id required" := by
  exact ⟨by decide, rfl, rfl⟩

/-- C5 (amended): `upsertThread` fails with the validation error whenever
the descriptor's id is missing or empty, and the failing call creates or
modifies no thread, message list or message; for an existing user key it
causes no state change at all and schedules no save, while for a new user
key the user-resolution step (which runs before validation) has already
auto-created the empty tenant store and scheduled a save. -/
theorem C5_upsertThread_validation (db : Db) (u : String) (t : ThreadInput)
    (now : Nat) (hid : t.id = none ∨ t.id = some "") :
    ((upsertThread db u t now).2.1 = Except.error "thread.id required") ∧
    (∀ s : Store, alookup db u = some s →
      upsertThread db u t now = (db, Except.error "thread.id required", false)) ∧
    (alookup db u = none →
      upsertThread db u t now =
        (db ++ [(u, emptyStore)], Except.error "thread.id required", true)) := by
  refine ⟨?_, ?_, ?_⟩
  · cases hu : alookup db u with
    | some s => simp [upsertThread, getUser_some hu, hid]
    | none => simp [upsertThread, getUser_none hu, hid]
  · intro s hu
    simp [upsertThread, getUser_some hu, hid]
  · intro hu
    simp [upsertThread, getUser_none hu, hid]

/-- Witness for C5 at a concrete dataset with an existing user and an empty
descriptor id. -/
theorem C5_upsertThread_validation_witness :
    ((⟨some "", none, none, none, none, none, none, none, none⟩ : ThreadInput).id
        = none ∨
      (⟨some "", none, none, none, none, none, none, none, none⟩ : ThreadInput).id
        = some "") ∧
    upsertThread [("u", emptyStore)] "u"
        ⟨some "", none, none, none, none, none, none, none, none⟩ 5 =
      ([("u", emptyStore)], Except.error "thread.id required", false) := by
  refine ⟨Or.inr rfl, ?_⟩
  have h := (C5_upsertThread_validation [("u", emptyStore)] "u"
    ⟨some "", none, none, none, none, none, none, none, none⟩ 5
    (Or.inr rfl)).2.1 emptyStore rfl
  exact h

/-!
## Reachability invariants
-/

/-- Within one tenant store: a thread record exists iff a message list
exists for the same id. -/
def StoreInv (s : Store) : Prop :=
  ∀ tid, (alookup s.threads tid).isSome ↔ (alookup s.messages tid).isSome

/-- Every resolved tenant store satisfies the thread/message-list pairing. -/
def DbInv (db : Db) : Prop :=
  ∀ u s, alookup db u = some s → StoreInv s

theorem StoreInv_empty : StoreInv emptyStore := by
  intro tid
  simp [emptyStore, alookup]

theorem DbInv_nil : DbInv [] := by
  intro u s h
  simp [alookup] at h

theorem DbInv_append_empty {db : Db} (u : String) (h : DbInv db) :
    DbInv (db ++ [(u, emptyStore)]) := by
  intro u' s hs
  cases hu : alookup db u' with
  | some s0 =>
    rw [alookup_append_of_some db _ u' s0 hu] at hs
    injection hs with hs
    exact hs ▸ h u' s0 hu
  | none =>
    rw [alookup_append_of_none db _ u' hu] at hs
    by_cases he : u = u'
    · simp [alookup, he] at hs
      rw [← hs]
      exact StoreInv_empty
    · simp [alookup, he] at hs

theorem DbInv_aset {db : Db} {u : String} {s : Store} (h : DbInv db)
    (hs : StoreInv s) : DbInv (aset db u s) := by
  intro u' s' hs'
  by_cases he : u' = u
  · subst he
    rw [alookup_aset_self] at hs'
    cases hs'
    exact hs
  · rw [alookup_aset_ne db u u' s he] at hs'
    exact h u' s' hs'

theorem StoreInv_ensureThread {s : Store} (tid : String) (now : Nat)
    (h : StoreInv s) : StoreInv (ensureThread s tid now) := by
  intro tid'
  by_cases he : tid' = tid
  · subst he
    simp [ensureThread_threads_self, ensureThread_messages_self]
  · rw [ensureThread_threads_ne s tid tid' now he,
      ensureThread_messages_ne s tid tid' now he]
    exact h tid'

/-- After `ensureThread` both the thread record and the message list exist. -/
theorem ensureThread_present (s : Store) (tid : String) (now : Nat) :
    (alookup (ensureThread s tid now).threads tid).isSome ∧
    (alookup (ensureThread s tid now).messages tid).isSome := by
  simp [ensureThread_threads_self, ensureThread_messages_self]

/-- The store written by the append route's created branch keeps the
pairing. -/
theorem StoreInv_aset_both {s : Store} {tid : String} {th : Thread}
    {l : List Message} (h : StoreInv s) :
    StoreInv ⟨aset s.threads tid th, aset s.messages tid l⟩ := by
  intro tid'
  by_cases he : tid' = tid
  · subst he
    simp [alookup_aset_self]
  · simp only
    rw [alookup_aset_ne _ _ _ _ he, alookup_aset_ne _ _ _ _ he]
    exact h tid'

/-- The store written by the upsert route keeps the pairing. -/
theorem StoreInv_upsert_store {s : Store} {id : String} {th : Thread}
    (h : StoreInv s) :
    StoreInv ⟨aset s.threads id th,
      if (alookup s.messages id).isSome then s.messages
      else aset s.messages id []⟩ := by
  intro tid'
  by_cases hm : (alookup s.messages id).isSome
  · by_cases he : tid' = id
    · subst he
      simp [hm, alookup_aset_self]
    · simpa [hm, alookup_aset_ne _ _ _ _ he] using h tid'
  · by_cases he : tid' = id
    · subst he
      simp [hm, alookup_aset_self]
    · simpa [hm, alookup_aset_ne _ _ _ _ he] using h tid'

/-- The store written by the read route (which overwrites only an existing
thread record whose message list is present) keeps the pairing. -/
theorem StoreInv_aset_thread {s : Store} {tid : String} {th : Thread}
    (h : StoreInv s) (hm : (alookup s.messages tid).isSome) :
    StoreInv { s with threads := aset s.threads tid th } := by
  intro tid'
  by_cases he : tid' = tid
  · subst he
    simp [alookup_aset_self, hm]
  · simpa [alookup_aset_ne _ _ _ _ he] using h tid'

/-- Every single public operation preserves the thread/message-list
pairing invariant. -/
theorem DbInv_step (db : Db) (op : Op) (now : Nat) (h : DbInv db) :
    DbInv (step db op now) := by
  have hemp : ∀ u : String, DbInv (db ++ [(u, emptyStore)]) :=
    fun u => DbInv_append_empty u h
  cases op with
  | listThreadsOp u =>
    cases hu : alookup db u with
    | some s => simpa [step, listThreads, getUser_some hu] using h
    | none => simpa [step, listThreads, getUser_none hu] using hemp u
  | upsertThreadOp u t =>
    cases hu : alookup db u with
    | some s =>
      simp only [step, upsertThread, getUser_some hu]
      split
      · exact h
      · split
        · exact h
        · exact DbInv_aset h (StoreInv_upsert_store (h u s hu))
    | none =>
      simp only [step, upsertThread, getUser_none hu]
      split
      · exact hemp u
      · split
        · exact hemp u
        · exact DbInv_aset (hemp u) (StoreInv_upsert_store StoreInv_empty)
  | listMessagesOp u tid afterRaw =>
    cases hu : alookup db u with
    | some s =>
      simp only [step, listMessages, getUser_some hu]
      exact DbInv_aset h (StoreInv_ensureThread tid now (h u s hu))
    | none =>
      simp only [step, listMessages, getUser_none hu]
      exact DbInv_aset (hemp u) (StoreInv_ensureThread tid now StoreInv_empty)
  | markReadOp u tid =>
    cases hu : alookup db u with
    | some s =>
      simp only [step, markRead, getUser_some hu]
      exact DbInv_aset h (StoreInv_aset_thread
        (StoreInv_ensureThread tid now (h u s hu))
        (ensureThread_present s tid now).2)
    | none =>
      simp only [step, markRead, getUser_none hu]
      exact DbInv_aset (hemp u) (StoreInv_aset_thread
        (StoreInv_ensureThread tid now StoreInv_empty)
        (ensureThread_present emptyStore tid now).2)
  | appendMessageOp u tid b fresh =>
    cases hu : alookup db u with
    | some s =>
      simp only [step, appendMessage, getUser_some hu]
      split
      · exact DbInv_aset h (StoreInv_ensureThread tid now (h u s hu))
      · exact DbInv_aset h
          (StoreInv_aset_both (StoreInv_ensureThread tid now (h u s hu)))
    | none =>
      simp only [step, appendMessage, getUser_none hu]
      split
      · exact DbInv_aset (hemp u) (StoreInv_ensureThread tid now StoreInv_empty)
      · exact DbInv_aset (hemp u)
          (StoreInv_aset_both (StoreInv_ensureThread tid now StoreInv_empty))

theorem DbInv_runOps (ops : List (Op × Nat)) (db : Db) (h : DbInv db) :
    DbInv (runOps db ops) := by
  induction ops generalizing db with
  | nil => exact h
  | cons x rest ih =>
    obtain ⟨op, now⟩ := x
    exact ih (step db op now) (DbInv_step db op now h)

/-!
## Claim C7
-/

/-- C7: in every dataset reachable from the empty one through the public
operations, for every tenant and thread id, a thread record exists in the
tenant's threads map if and only if a (possibly empty) message list exists
under the same id in the tenant's messages map. -/
theorem C7_thread_iff_messages (ops : List (Op × Nat)) (u : String) (s : Store)
    (hs : alookup (runOps [] ops) u = some s) (tid : String) :
    (alookup s.threads tid).isSome ↔ (alookup s.messages tid).isSome :=
  DbInv_runOps ops [] DbInv_nil u s hs tid

/-- Witness for C7 on the one-append trace. -/
theorem C7_thread_iff_messages_witness :
    alookup
        (runOps []
          [(Op.appendMessageOp "u" "t" ⟨none, false, some "hi", none⟩ "f", 5)])
        "u" =
      some ⟨[("t", ⟨"t", "t", "", false, "hi", 0, 5, false, false⟩)],
            [("t", [⟨"f", false, "hi", 5⟩])]⟩ ∧
    ((alookup
        (⟨[("t", ⟨"t", "t", "", false, "hi", 0, 5, false, false⟩)],
          [("t", [⟨"f", false, "hi", 5⟩])]⟩ : Store).threads "t").isSome ↔
      (alookup
        (⟨[("t", ⟨"t", "t", "", false, "hi", 0, 5, false, false⟩)],
          [("t", [⟨"f", false, "hi", 5⟩])]⟩ : Store).messages "t").isSome) := by
  refine ⟨rfl, ?_⟩
  exact C7_thread_iff_messages
    [(Op.appendMessageOp "u" "t" ⟨none, false, some "hi", none⟩ "f", 5)] "u"
    ⟨[("t", ⟨"t", "t", "", false, "hi", 0, 5, false, false⟩)],
     [("t", [⟨"f", false, "hi", 5⟩])]⟩ rfl "t"

/-!
## Timestamp monotonicity invariant
-/

/-- A message list whose `at` stamps are non-decreasing in insertion order
and all bounded by `bound`. -/
def MsgListOk (l : List Message) (bound : Nat) : Prop :=
  l.Pairwise (fun a b => a.atMs ≤ b.atMs) ∧ ∀ m ∈ l, m.atMs ≤ bound

/-- All message lists of a store are ordered and bounded. -/
def MsgStoreOk (s : Store) (bound : Nat) : Prop :=
  ∀ tid l, alookup s.messages tid = some l → MsgListOk l bound

/-- All message lists of the dataset are ordered and bounded. -/
def MsgDbOk (db : Db) (bound : Nat) : Prop :=
  ∀ u s, alookup db u = some s → MsgStoreOk s bound

theorem MsgListOk_mono {l : List Message} {b b2 : Nat} (hb : b ≤ b2)
    (h : MsgListOk l b) : MsgListOk l b2 :=
  ⟨h.1, fun m hm => le_trans (h.2 m hm) hb⟩

theorem MsgStoreOk_mono {s : Store} {b b2 : Nat} (hb : b ≤ b2)
    (h : MsgStoreOk s b) : MsgStoreOk s b2 :=
  fun tid l hl => MsgListOk_mono hb (h tid l hl)

theorem MsgDbOk_mono {db : Db} {b b2 : Nat} (hb : b ≤ b2)
    (h : MsgDbOk db b) : MsgDbOk db b2 :=
  fun u s hs => MsgStoreOk_mono hb (h u s hs)

theorem MsgListOk_nil (b : Nat) : MsgListOk [] b := by
  constructor <;> simp

theorem MsgStoreOk_empty (b : Nat) : MsgStoreOk emptyStore b := by
  intro tid l hl
  simp [emptyStore, alookup] at hl

theorem MsgDbOk_nil (b : Nat) : MsgDbOk [] b := by
  intro u s hs
  simp [alookup] at hs

theorem MsgDbOk_append_empty {db : Db} {b : Nat} (u : String) (h : MsgDbOk db b) :
    MsgDbOk (db ++ [(u, emptyStore)]) b := by
  intro u' s hs
  cases hu : alookup db u' with
  | some s0 =>
    rw [alookup_append_of_some db _ u' s0 hu] at hs
    injection hs with hs
    exact hs ▸ h u' s0 hu
  | none =>
    rw [alookup_append_of_none db _ u' hu] at hs
    by_cases he : u = u'
    · simp [alookup, he] at hs
      rw [← hs]
      exact MsgStoreOk_empty b
    · simp [alookup, he] at hs

theorem MsgDbOk_aset {db : Db} {u : String} {s : Store} {b : Nat}
    (h : MsgDbOk db b) (hs : MsgStoreOk s b) : MsgDbOk (aset db u s) b := by
  intro u' s' hs'
  by_cases he : u' = u
  · subst he
    rw [alookup_aset_self] at hs'
    cases hs'
    exact hs
  · rw [alookup_aset_ne db u u' s he] at hs'
    exact h u' s' hs'

theorem MsgStoreOk_ensureThread {s : Store} {b : Nat} (tid : String) (now : Nat)
    (h : MsgStoreOk s b) : MsgStoreOk (ensureThread s tid now) b := by
  intro tid' l hl
  by_cases he : tid' = tid
  · subst he
    rw [ensureThread_messages_self] at hl
    injection hl with hl
    cases hm : alookup s.messages tid' with
    | some l0 =>
      rw [hm] at hl
      simp at hl
      exact hl ▸ h tid' l0 hm
    | none =>
      rw [hm] at hl
      simp at hl
      exact hl ▸ MsgListOk_nil b
  · rw [ensureThread_messages_ne s tid tid' now he] at hl
    exact h tid' l hl

/-- The upsert route's store keeps message lists ordered and bounded. -/
theorem MsgStoreOk_upsert_store {s : Store} {id : String} {th : Thread} {b : Nat}
    (h : MsgStoreOk s b) :
    MsgStoreOk (⟨aset s.threads id th,
      if (alookup s.messages id).isSome then s.messages
      else aset s.messages id []⟩ : Store) b := by
  intro tid' l hl
  by_cases hm : (alookup s.messages id).isSome
  · simp only [hm, if_pos] at hl
    exact h tid' l hl
  · simp only [hm] at hl
    rw [if_neg (by simp)] at hl
    by_cases he : tid' = id
    · subst he
      rw [alookup_aset_self] at hl
      injection hl with hl
      exact hl ▸ MsgListOk_nil b
    · rw [alookup_aset_ne _ _ _ _ he] at hl
      exact h tid' l hl

/-- Overwriting only a thread record never disturbs message lists. -/
theorem MsgStoreOk_aset_thread {s : Store} {tid : String} {th : Thread} {b : Nat}
    (h : MsgStoreOk s b) :
    MsgStoreOk { s with threads := aset s.threads tid th } b := by
  intro tid' l hl
  exact h tid' l hl

/-- Appending one message stamped `now` at the end of a list whose stamps
are bounded by `now` keeps the list ordered and bounded. -/
theorem MsgListOk_push {l : List Message} {b now : Nat} (hb : b ≤ now)
    (h : MsgListOk l b) (m : Message) (hm : m.atMs = now) :
    MsgListOk (l ++ [m]) now := by
  constructor
  · rw [List.pairwise_append]
    refine ⟨h.1, by simp, ?_⟩
    intro a ha b2 hb2
    simp at hb2
    subst hb2
    rw [hm]
    exact le_trans (h.2 a ha) hb
  · intro m0 hm0
    rw [List.mem_append] at hm0
    cases hm0 with
    | inl hin => exact le_trans (h.2 m0 hin) hb
    | inr hin =>
      simp at hin
      subst hin
      exact le_of_eq hm

/-- The append route's created branch keeps message lists ordered and
bounded by the new server stamp. -/
theorem MsgStoreOk_append_store {s : Store} {tid : String} {th : Thread}
    {b now : Nat} (hb : b ≤ now) (h : MsgStoreOk s b) (m : Message)
    (hm : m.atMs = now) (l : List Message)
    (hl : l = (alookup s.messages tid).getD []) :
    MsgStoreOk (⟨aset s.threads tid th, aset s.messages tid (l ++ [m])⟩ : Store)
      now := by
  intro tid' l' hl'
  by_cases he : tid' = tid
  · subst he
    rw [alookup_aset_self] at hl'
    injection hl' with hl'
    have hok : MsgListOk l b := by
      cases hms : alookup s.messages tid' with
      | some l0 =>
        rw [hms] at hl
        simp at hl
        exact hl ▸ h tid' l0 hms
      | none =>
        rw [hms] at hl
        simp at hl
        exact hl ▸ MsgListOk_nil b
    exact hl' ▸ MsgListOk_push hb hok m hm
  · rw [alookup_aset_ne _ _ _ _ he] at hl'
    exact MsgStoreOk_mono hb (fun t0 l0 h0 => h t0 l0 h0) tid' l' hl'

/-- Every public operation executed at a time `now` at or after the current
bound keeps all message lists ordered and bounded by `now`. -/
theorem MsgDbOk_step (db : Db) (op : Op) (b now : Nat) (hb : b ≤ now)
    (h : MsgDbOk db b) : MsgDbOk (step db op now) now := by
  have h2 : MsgDbOk db now := MsgDbOk_mono hb h
  have hemp : ∀ u : String, MsgDbOk (db ++ [(u, emptyStore)]) now :=
    fun u => MsgDbOk_append_empty u h2
  cases op with
  | listThreadsOp u =>
    cases hu : alookup db u with
    | some s => simpa [step, listThreads, getUser_some hu] using h2
    | none => simpa [step, listThreads, getUser_none hu] using hemp u
  | upsertThreadOp u t =>
    cases hu : alookup db u with
    | some s =>
      simp only [step, upsertThread, getUser_some hu]
      split
      · exact h2
      · split
        · exact h2
        · exact MsgDbOk_aset h2 (MsgStoreOk_upsert_store (h2 u s hu))
    | none =>
      simp only [step, upsertThread, getUser_none hu]
      split
      · exact hemp u
      · split
        · exact hemp u
        · exact MsgDbOk_aset (hemp u) (MsgStoreOk_upsert_store (MsgStoreOk_empty now))
  | listMessagesOp u tid afterRaw =>
    cases hu : alookup db u with
    | some s =>
      simp only [step, listMessages, getUser_some hu]
      exact MsgDbOk_aset h2 (MsgStoreOk_ensureThread tid now (h2 u s hu))
    | none =>
      simp only [step, listMessages, getUser_none hu]
      exact MsgDbOk_aset (hemp u) (MsgStoreOk_ensureThread tid now (MsgStoreOk_empty now))
  | markReadOp u tid =>
    cases hu : alookup db u with
    | some s =>
      simp only [step, markRead, getUser_some hu]
      exact MsgDbOk_aset h2
        (MsgStoreOk_aset_thread (MsgStoreOk_ensureThread tid now (h2 u s hu)))
    | none =>
      simp only [step, markRead, getUser_none hu]
      exact MsgDbOk_aset (hemp u)
        (MsgStoreOk_aset_thread (MsgStoreOk_ensureThread tid now (MsgStoreOk_empty now)))
  | appendMessageOp u tid b0 fresh =>
    cases hu : alookup db u with
    | some s =>
      simp only [step, appendMessage, getUser_some hu]
      split
      · exact MsgDbOk_aset h2 (MsgStoreOk_ensureThread tid now (h2 u s hu))
      · exact MsgDbOk_aset h2
          (MsgStoreOk_append_store (le_refl now)
            (MsgStoreOk_ensureThread tid now (h2 u s hu)) _ rfl _ rfl)
    | none =>
      simp only [step, appendMessage, getUser_none hu]
      split
      · exact MsgDbOk_aset (hemp u)
          (MsgStoreOk_ensureThread tid now (MsgStoreOk_empty now))
      · exact MsgDbOk_aset (hemp u)
          (MsgStoreOk_append_store (le_refl now)
            (MsgStoreOk_ensureThread tid now (MsgStoreOk_empty now)) _ rfl _ rfl)

theorem MsgDbOk_runOps (ops : List (Op × Nat)) (db : Db) (b : Nat)
    (h : MsgDbOk db b) (hc : List.Chain (· ≤ ·) b (ops.map Prod.snd)) :
    ∃ b2, MsgDbOk (runOps db ops) b2 := by
  induction ops generalizing db b with
  | nil => exact ⟨b, h⟩
  | cons x rest ih =>
    obtain ⟨op, now⟩ := x
    rw [List.map_cons, List.chain_cons] at hc
    exact ih (step db op now) now (MsgDbOk_step db op b now hc.1 h) hc.2

/-!
## Claim C6
-/

/-- C6: message `at` stamps are server-assigned (the client-supplied time is
ignored), so within every thread of a dataset reachable by a chronologically
ordered trace the stamps are non-decreasing in insertion order; a genuine
append stamps the new message `now` and rewrites the parent thread's
`lastMessage`/`updatedAt` to the new message's text and stamp, while a
duplicate append leaves the whole dataset, including the parent thread,
untouched. -/
theorem C6_server_stamps_monotone :
    (∀ ops : List (Op × Nat), List.Chain (· ≤ ·) 0 (ops.map Prod.snd) →
      ∀ u tid, (msgsOf (runOps [] ops) u tid).Pairwise
        (fun a b => a.atMs ≤ b.atMs)) ∧
    (∀ (db : Db) (u tid : String) (b : MessageInput) (fresh : String)
        (now : Nat) (c : Option Nat),
      appendMessage db u tid ⟨b.id, b.fromMe, b.text, c⟩ fresh now =
        appendMessage db u tid b fresh now) ∧
    (∀ (db : Db) (u tid : String) (b : MessageInput) (fresh : String) (now : Nat),
      (msgsOf db u tid).find? (fun m0 => m0.id = effId b fresh) = none →
      (appendMessage db u tid b fresh now).2.1.atMs = now ∧
      (appendMessage db u tid b fresh now).2.1.created = true ∧
      ∃ s2, alookup (appendMessage db u tid b fresh now).1 u = some s2 ∧
        ∃ th', alookup s2.threads tid = some th' ∧
          th'.lastMessage = b.text.getD "" ∧ th'.updatedAt = now) ∧
    (∀ (db : Db) (u tid : String) (s : Store) (l : List Message) (m : Message)
        (b : MessageInput) (fresh : String) (now : Nat),
      alookup db u = some s → (alookup s.threads tid).isSome →
      alookup s.messages tid = some l →
      l.find? (fun m0 => m0.id = effId b fresh) = some m →
      appendMessage db u tid b fresh now = (db, ⟨false, m.id, m.atMs⟩, false)) := by
  refine ⟨?_, ?_, ?_, ?_⟩
  · intro ops hc u tid
    obtain ⟨b2, hok⟩ := MsgDbOk_runOps ops [] 0 (MsgDbOk_nil 0) hc
    cases hu : alookup (runOps [] ops) u with
    | some s =>
      cases hm : alookup s.messages tid with
      | some l =>
        have : msgsOf (runOps [] ops) u tid = l := by simp [msgsOf, hu, hm]
        rw [this]
        exact (hok u s hu tid l hm).1
      | none =>
        have : msgsOf (runOps [] ops) u tid = [] := by simp [msgsOf, hu, hm]
        rw [this]
        exact List.Pairwise.nil
    | none =>
      have : msgsOf (runOps [] ops) u tid = [] := by simp [msgsOf, hu]
      rw [this]
      exact List.Pairwise.nil
  · intro db u tid b fresh now c
    cases b
    rfl
  · intro db u tid b fresh now hf
    obtain ⟨hr, hsv, s2, hs2, hm2, th', hth', hlm, hup⟩ :=
      appendMessage_created db u tid b fresh now hf
    rw [hr]
    exact ⟨rfl, rfl, s2, hs2, th', hth', hlm, hup⟩
  · intro db u tid s l m b fresh now hu ht hm hf
    exact appendMessage_duplicate b fresh now hu ht hm hf

/-- Witness for C6 on a chronological two-append trace. -/
theorem C6_server_stamps_monotone_witness :
    List.Chain (· ≤ ·) 0 [5, 9] ∧
    (msgsOf
        (runOps []
          [(Op.appendMessageOp "u" "t" ⟨some "m1", false, some "a", none⟩ "f1", 5),
           (Op.appendMessageOp "u" "t" ⟨some "m2", false, some "b", none⟩ "f2", 9)])
        "u" "t").Pairwise (fun a b => a.atMs ≤ b.atMs) := by
  have hc : List.Chain (· ≤ ·) 0 [5, 9] := by
    norm_num [List.chain_cons]
  refine ⟨hc, ?_⟩
  exact C6_server_stamps_monotone.1
    [(Op.appendMessageOp "u" "t" ⟨some "m1", false, some "a", none⟩ "f1", 5),
     (Op.appendMessageOp "u" "t" ⟨some "m2", false, some "b", none⟩ "f2", 9)]
    hc "u" "t"

/-!
## Sorting lemmas for the thread listing
-/

theorem insertDesc_perm (t : Thread) (l : List Thread) :
    (insertDesc t l).Perm (t :: l) := by
  induction l with
  | nil => simp [insertDesc]
  | cons h rest ih =>
    by_cases hc : h.updatedAt ≤ t.updatedAt
    · simp [insertDesc, hc]
    · rw [insertDesc, if_neg hc]
      exact (ih.cons h).trans (List.Perm.swap t h rest)

theorem sortThreadsDesc_perm (l : List Thread) :
    (sortThreadsDesc l).Perm l := by
  induction l with
  | nil => simp [sortThreadsDesc]
  | cons h rest ih =>
    exact ((insertDesc_perm h (sortThreadsDesc rest)).trans (ih.cons h))

theorem mem_sortThreadsDesc {x : Thread} {l : List Thread} :
    x ∈ sortThreadsDesc l ↔ x ∈ l :=
  (sortThreadsDesc_perm l).mem_iff

theorem mem_insertDesc {x t : Thread} {l : List Thread} :
    x ∈ insertDesc t l ↔ x = t ∨ x ∈ l := by
  rw [(insertDesc_perm t l).mem_iff]
  simp

theorem insertDesc_pairwise {t : Thread} {l : List Thread}
    (h : l.Pairwise (fun a b => b.updatedAt ≤ a.updatedAt)) :
    (insertDesc t l).Pairwise (fun a b => b.updatedAt ≤ a.updatedAt) := by
  induction l with
  | nil => simp [insertDesc]
  | cons x rest ih =>
    rw [List.pairwise_cons] at h
    by_cases hc : x.updatedAt ≤ t.updatedAt
    · rw [insertDesc, if_pos hc, List.pairwise_cons]
      refine ⟨?_, List.Pairwise.cons h.1 h.2⟩
      intro y hy
      rw [List.mem_cons] at hy
      rcases hy with hy | hy
      · exact hy ▸ hc
      · exact le_trans (h.1 y hy) hc
    · rw [insertDesc, if_neg hc, List.pairwise_cons]
      refine ⟨?_, ih h.2⟩
      intro y hy
      rw [mem_insertDesc] at hy
      rcases hy with hy | hy
      · exact hy ▸ le_of_not_le hc
      · exact h.1 y hy

theorem sortThreadsDesc_pairwise (l : List Thread) :
    (sortThreadsDesc l).Pairwise (fun a b => b.updatedAt ≤ a.updatedAt) := by
  induction l with
  | nil => simp [sortThreadsDesc]
  | cons h rest ih => exact insertDesc_pairwise ih

theorem insertDesc_of_max {t : Thread} {l : List Thread}
    (h : ∀ y ∈ l, y.updatedAt < t.updatedAt) : insertDesc t l = t :: l := by
  cases l with
  | nil => rfl
  | cons x rest =>
    rw [insertDesc, if_pos (le_of_lt (h x (by simp)))]

theorem insertDesc_cons_of_lt {a t : Thread} {l : List Thread}
    (h : a.updatedAt < t.updatedAt) :
    insertDesc a (t :: l) = t :: insertDesc a l := by
  rw [insertDesc, if_neg (not_le.mpr h)]

/-- A strictly most-recent thread is stably sorted to the front, wherever it
sits in the original order. -/
theorem sortThreadsDesc_front (t : Thread) (l1 l2 : List Thread)
    (h : ∀ y, (y ∈ l1 ∨ y ∈ l2) → y.updatedAt < t.updatedAt) :
    sortThreadsDesc (l1 ++ t :: l2) = t :: sortThreadsDesc (l1 ++ l2) := by
  induction l1 with
  | nil =>
    simp only [List.nil_append, sortThreadsDesc]
    refine insertDesc_of_max ?_
    intro y hy
    exact h y (Or.inr (mem_sortThreadsDesc.mp hy))
  | cons a l1 ih =>
    have hsub : ∀ y, (y ∈ l1 ∨ y ∈ l2) → y.updatedAt < t.updatedAt := by
      intro y hy
      rcases hy with hy | hy
      · exact h y (Or.inl (List.mem_cons_of_mem a hy))
      · exact h y (Or.inr hy)
    have ha : a.updatedAt < t.updatedAt := h a (Or.inl (List.mem_cons_self a l1))
    show insertDesc a (sortThreadsDesc (l1 ++ t :: l2)) =
      t :: insertDesc a (sortThreadsDesc (l1 ++ l2))
    rw [ih hsub]
    exact insertDesc_cons_of_lt ha

theorem alookup_eq_none_iff {α : Type} (l : List (String × α)) (k : String) :
    alookup l k = none ↔ ∀ p ∈ l, p.1 ≠ k := by
  induction l with
  | nil => simp [alookup]
  | cons p rest ih =>
    obtain ⟨k0, v⟩ := p
    by_cases h0 : k0 = k
    · simp [alookup, h0]
    · simp [alookup, h0, ih]

theorem ensureThread_threads_of_present {s : Store} {tid : String} {now : Nat}
    (ht : (alookup s.threads tid).isSome) :
    (ensureThread s tid now).threads = s.threads := by
  unfold ensureThread
  by_cases hm : (alookup s.messages tid).isSome <;> simp [ht, hm]

theorem ensureThread_threads_of_absent {s : Store} {tid : String} {now : Nat}
    (ht : alookup s.threads tid = none) :
    (ensureThread s tid now).threads =
      s.threads ++ [(tid, defaultThread tid now)] := by
  unfold ensureThread
  have ht2 : ¬(alookup s.threads tid).isSome := by simp [ht]
  by_cases hm : (alookup s.messages tid).isSome <;>
    simp [ht2, hm, aset_of_none s.threads tid _ ht]

/-- With unique keys, rewriting the strictly most recent thread record sorts
it to the front of the thread listing. -/
theorem sort_aset_front {l : List (String × Thread)} {tid : String}
    {w th2 : Thread} (hnd : (l.map Prod.fst).Nodup)
    (hw : alookup l tid = some w)
    (hlt : ∀ p ∈ l, p.1 ≠ tid → p.2.updatedAt < th2.updatedAt) :
    (sortThreadsDesc ((aset l tid th2).map Prod.snd)).head? = some th2 := by
  obtain ⟨l1, l2, hl, hset, hnone⟩ := aset_of_some l tid th2 w hw
  have hl2keys : ∀ p ∈ l2, p.1 ≠ tid := by
    have hsub : (tid :: l2.map Prod.fst).Sublist (l.map Prod.fst) := by
      rw [hl]
      simp only [List.map_append, List.map_cons]
      exact List.sublist_append_right _ _
    have : (tid :: l2.map Prod.fst).Nodup := hsub.nodup hnd
    rw [List.nodup_cons] at this
    intro p hp he
    exact this.1 (he ▸ List.mem_map_of_mem Prod.fst hp)
  have hl1keys : ∀ p ∈ l1, p.1 ≠ tid := (alookup_eq_none_iff l1 tid).mp hnone
  rw [hset, List.map_append, List.map_cons]
  rw [sortThreadsDesc_front th2 (l1.map Prod.snd) (l2.map Prod.snd) ?_]
  · rfl
  · intro y hy
    rcases hy with hy | hy
    · obtain ⟨p, hp, hpy⟩ := List.mem_map.mp hy
      exact hpy ▸ hlt p (hl ▸ List.mem_append_left _ hp) (hl1keys p hp)
    · obtain ⟨p, hp, hpy⟩ := List.mem_map.mp hy
      exact hpy ▸ hlt p
        (hl ▸ List.mem_append_right _ (List.mem_cons_of_mem _ hp))
        (hl2keys p hp)

/-- Full shape of a created append on a resolved user. -/
theorem appendMessage_created_eq {db : Db} {u tid : String} {s : Store}
    {b : MessageInput} {fresh : String} {now : Nat}
    (hu : alookup db u = some s)
    (hf : ((alookup (ensureThread s tid now).messages tid).getD []).find?
        (fun m0 => m0.id = effId b fresh) = none) :
    appendMessage db u tid b fresh now =
      (aset db u
        ⟨aset (ensureThread s tid now).threads tid
          { (alookup (ensureThread s tid now).threads tid).getD
              (defaultThread tid now) with
            lastMessage := b.text.getD "", updatedAt := now },
         aset (ensureThread s tid now).messages tid
          (((alookup (ensureThread s tid now).messages tid).getD []) ++
            [mkMsg b fresh now])⟩,
       ⟨true, effId b fresh, now⟩, true) := by
  simp [appendMessage, getUser_some hu, hf, mkMsg]

/-!
## Claim C8
-/

/-- C8 counterexample: thread "a" was upserted with `updatedAt = 5`; a
genuinely new message is appended to thread "b" at server time 5 (an
`updatedAt` tie).  The JS sort comparator returns 0 on the tie and the
stable sort keeps insertion order, so the listing stays `["a", "b"]`:
appending did NOT move thread "b" to the front. -/
theorem C8_counterexample :
    ((appendMessage (upsertThread [] "u"
          ⟨some "a", none, none, none, none, none, some 5, none, none⟩ 0).1
        "u" "b" ⟨none, false, some "hi", none⟩ "f1" 5).2.1).created = true ∧
    ((listThreads (appendMessage (upsertThread [] "u"
          ⟨some "a", none, none, none, none, none, some 5, none, none⟩ 0).1
        "u" "b" ⟨none, false, some "hi", none⟩ "f1" 5).1 "u").2.1.map
      Thread.id = ["a", "b"]) := by
  exact ⟨rfl, by decide⟩

/-- C8 (amended): `listThreads` returns exactly the tenant's thread records
(a permutation of the stored ones) sorted by `updatedAt` descending, ties
kept in stored (insertion) order by the stable sort; appending a genuinely
new message moves its thread to the front of the listing provided its
server stamp is strictly greater than every other thread's `updatedAt` — on
a tie an earlier-stored thread can stay ahead. -/
theorem C8_listThreads_sorted_front :
    (∀ (db : Db) (u : String),
      ((listThreads db u).2.1).Perm ((threadsOf db u).map Prod.snd) ∧
      ((listThreads db u).2.1).Pairwise (fun a b => b.updatedAt ≤ a.updatedAt)) ∧
    (∀ (db : Db) (u tid : String) (s : Store) (b : MessageInput)
        (fresh : String) (now : Nat),
      alookup db u = some s →
      (s.threads.map Prod.fst).Nodup →
      (∀ p ∈ s.threads, p.1 ≠ tid → p.2.updatedAt < now) →
      (msgsOf db u tid).find? (fun m0 => m0.id = effId b fresh) = none →
      ∃ th2 : Thread,
        alookup (threadsOf (appendMessage db u tid b fresh now).1 u) tid =
          some th2 ∧
        th2.updatedAt = now ∧
        (appendMessage db u tid b fresh now).2.1.created = true ∧
        (listThreads (appendMessage db u tid b fresh now).1 u).2.1.head? =
          some th2) := by
  constructor
  · intro db u
    cases hu : alookup db u with
    | some s =>
      have h1 : (listThreads db u).2.1 = sortThreadsDesc (s.threads.map Prod.snd) := by
        simp [listThreads, getUser_some hu]
      have h2 : threadsOf db u = s.threads := by simp [threadsOf, hu]
      rw [h1, h2]
      exact ⟨sortThreadsDesc_perm _, sortThreadsDesc_pairwise _⟩
    | none =>
      have h1 : (listThreads db u).2.1 = [] := by
        simp [listThreads, getUser_none hu, emptyStore, sortThreadsDesc]
      have h2 : threadsOf db u = [] := by simp [threadsOf, hu]
      rw [h1, h2]
      exact ⟨List.Perm.refl _, List.Pairwise.nil⟩
  · intro db u tid s b fresh now hu hnd hlt hf
    have hbase : (alookup (ensureThread s tid now).messages tid).getD [] =
        msgsOf db u tid := by
      rw [ensureThread_messages_self]
      simp [msgsOf, hu]
    have hf2 : ((alookup (ensureThread s tid now).messages tid).getD []).find?
        (fun m0 => m0.id = effId b fresh) = none := by
      rw [hbase]; exact hf
    have he := appendMessage_created_eq hu hf2
    set TH2 : Thread :=
      { (alookup (ensureThread s tid now).threads tid).getD
          (defaultThread tid now) with
        lastMessage := b.text.getD "", updatedAt := now } with hTH2
    set S2 : Store :=
      ⟨aset (ensureThread s tid now).threads tid TH2,
       aset (ensureThread s tid now).messages tid
        (((alookup (ensureThread s tid now).messages tid).getD []) ++
          [mkMsg b fresh now])⟩ with hS2
    have hdb : (appendMessage db u tid b fresh now).1 = aset db u S2 := by
      rw [he]
    have hu2 : alookup (aset db u S2) u = some S2 := alookup_aset_self db u S2
    refine ⟨TH2, ?_, rfl, ?_, ?_⟩
    · rw [hdb]
      have : threadsOf (aset db u S2) u = S2.threads := by
        simp [threadsOf, hu2]
      rw [this]
      exact alookup_aset_self _ tid TH2
    · rw [he]
    · rw [hdb]
      have hlist : (listThreads (aset db u S2) u).2.1 =
          sortThreadsDesc (S2.threads.map Prod.snd) := by
        simp [listThreads, getUser_some hu2]
      rw [hlist]
      have hw1 := ensureThread_threads_self s tid now
      cases ht : alookup s.threads tid with
      | some w =>
        have hth : (ensureThread s tid now).threads = s.threads :=
          ensureThread_threads_of_present (by simp [ht])
        refine sort_aset_front (w := (alookup s.threads tid).getD
          (defaultThread tid now)) ?_ ?_ ?_
        · rw [hth]; exact hnd
        · exact hw1
        · intro p hp hpk
          rw [hth] at hp
          exact hlt p hp hpk
      | none =>
        have hth : (ensureThread s tid now).threads =
            s.threads ++ [(tid, defaultThread tid now)] :=
          ensureThread_threads_of_absent ht
        have hkeys : ∀ p ∈ s.threads, p.1 ≠ tid :=
          (alookup_eq_none_iff s.threads tid).mp ht
        refine sort_aset_front (w := (alookup s.threads tid).getD
          (defaultThread tid now)) ?_ ?_ ?_
        · rw [hth, List.map_append]
          rw [List.nodup_append]
          refine ⟨hnd, by simp, ?_⟩
          intro a ha hb
          simp at hb
          obtain ⟨p, hp, hpa⟩ := List.mem_map.mp ha
          exact hkeys p hp (hpa.trans hb)
        · exact hw1
        · intro p hp hpk
          rw [hth, List.mem_append] at hp
          rcases hp with hp | hp
          · exact hlt p hp hpk
          · simp at hp
            exact absurd (by rw [hp]) hpk

/-- Witness for C8's front property: the appended thread's stamp 9 beats
the other thread's `updatedAt = 5`, so it is listed first. -/
theorem C8_listThreads_sorted_front_witness :
    ∃ th2 : Thread,
      alookup (threadsOf (appendMessage
          [("u", ⟨[("a", defaultThread "a" 5)], [("a", [])]⟩)]
          "u" "b" ⟨none, false, some "hi", none⟩ "f1" 9).1 "u") "b" =
        some th2 ∧
      th2.updatedAt = 9 ∧
      (appendMessage [("u", ⟨[("a", defaultThread "a" 5)], [("a", [])]⟩)]
          "u" "b" ⟨none, false, some "hi", none⟩ "f1" 9).2.1.created = true ∧
      (listThreads (appendMessage
          [("u", ⟨[("a", defaultThread "a" 5)], [("a", [])]⟩)]
          "u" "b" ⟨none, false, some "hi", none⟩ "f1" 9).1 "u").2.1.head? =
        some th2 := by
  refine C8_listThreads_sorted_front.2
    [("u", ⟨[("a", defaultThread "a" 5)], [("a", [])]⟩)]
    "u" "b" ⟨[("a", defaultThread "a" 5)], [("a", [])]⟩
    ⟨none, false, some "hi", none⟩ "f1" 9 rfl (by decide) ?_ rfl
  intro p hp hpk
  have : p = ("a", defaultThread "a" 5) := by
    simpa using hp
  rw [this]
  decide

/-!
## Claim C9: durable round-trip
-/

theorem decodeMessage_encodeMessage (m : Message) :
    decodeMessage (encodeMessage m) = some m := by
  cases m
  rfl

theorem decodeThread_encodeThread (t : Thread) :
    decodeThread (encodeThread t) = some t := by
  cases t
  rfl

theorem decodeList_map {α : Type} (dec : Json → Option α) (enc : α → Json)
    (hd : ∀ x, dec (enc x) = some x) (l : List α) :
    decodeList dec (l.map enc) = some l := by
  induction l with
  | nil => rfl
  | cons x rest ih => simp [decodeList, hd, ih]

theorem decodeFields_map {α : Type} (dec : Json → Option α) (enc : α → Json)
    (hd : ∀ x, dec (enc x) = some x) (l : List (String × α)) :
    decodeFields dec (l.map (fun p => (p.1, enc p.2))) = some l := by
  induction l with
  | nil => rfl
  | cons p rest ih =>
    obtain ⟨k, v⟩ := p
    simp [decodeFields, hd, ih]

theorem decodeMessages_encode (l : List Message) :
    decodeMessages (Json.arr (l.map encodeMessage)) = some l := by
  simp [decodeMessages, decodeList_map decodeMessage encodeMessage
    decodeMessage_encodeMessage]

theorem decodeStore_encodeStore (s : Store) :
    decodeStore (encodeStore s) = some s := by
  obtain ⟨ths, msgs⟩ := s
  simp [encodeStore, decodeStore,
    decodeFields_map decodeThread encodeThread decodeThread_encodeThread,
    decodeFields_map decodeMessages (fun l => Json.arr (l.map encodeMessage))
      decodeMessages_encode]

/-- Saving any dataset and loading the written document back is the
identity. -/
theorem loadDb_saveDbNow (db : Db) : loadDb (some (saveDbNow db)) = db := by
  simp [loadDb, saveDbNow,
    decodeFields_map decodeStore encodeStore decodeStore_encodeStore]

/-- C9: for every dataset reachable through the public operations,
persisting it with the durable store adapter and loading it back yields an
equal dataset. -/
theorem C9_save_load_roundtrip (ops : List (Op × Nat)) :
    loadDb (some (saveDbNow (runOps [] ops))) = runOps [] ops :=
  loadDb_saveDbNow (runOps [] ops)

end ChatStore
